import Mathlib

/-
  Verification development for the snomed-squasher ontology engine.

  The engine (`Snomed`: loader, concept graph, description index, resolver,
  traversal) is not shipped in this source tree — only its README, an example
  notebook and the freetext-mapping notebook are.  The engine is therefore
  modelled here from the specification; `automatically_map_conditions` from
  the freetext-mapping notebook is embedded from its source.
-/

namespace SnomedSquasher

/-- Modelled from the spec: the error taxonomy of §7 for the missing engine
module (load-time `MissingDefinitionFile`/`CorruptSnapshot`, query-time
`UnknownConcept`, `UnresolvedName`, `NoPrimaryDescription`, `CycleDetected`). -/
inductive SnomedError where
  | MissingDefinitionFile (fileName : String)
  | CorruptSnapshot
  | UnknownConcept (cui : Nat)
  | UnresolvedName (text : String)
  | NoPrimaryDescription (cui : Nat)
  | CycleDetected (cui : Nat)
deriving DecidableEq

/-- Modelled from the spec: a Description record of the missing description
index (§3): owning concept id, raw term text, status tag (`P`/`A`), release
tag, semantic type tags, active flag. -/
structure Description where
  conceptId : Nat
  term : String
  status : String
  release : String
  typeTags : List String
  active : Bool
deriving DecidableEq

/-- Modelled from the spec: the immutable snapshot built by the missing loader
(§2, §3): loaded concept ids, retained Descriptions, and the retained is-a
edges, each directed child → parent. -/
structure Snapshot where
  concepts : List Nat
  descriptions : List Description
  edges : List (Nat × Nat)
deriving DecidableEq

/-- Modelled from the spec: text normalization of the missing resolver is
case-folding and nothing else (§4.4) — every character lower-cased. -/
def normalize (s : String) : String :=
  ⟨s.data.map Char.toLower⟩

/-- Modelled from the spec: the inverted text index of the missing description
index (§4.3) — a case-folded key maps to the set of concept ids having a
Description with that exact normalized text. -/
def invertedIndex (S : Snapshot) (key : String) : List Nat :=
  ((S.descriptions.filter (fun d => decide (normalize d.term = key))).map
    (fun d => d.conceptId)).dedup

/-- Modelled from the spec: `find_cui` of the missing resolver (§4.4) —
normalize the text, look up the inverted index, and return the single concept
id only when the key maps to exactly one concept; otherwise no match. -/
def find_cui (S : Snapshot) (text : String) : Option Nat :=
  match invertedIndex S (normalize text) with
  | [c] => some c
  | _ => none

/-- Modelled from the spec: `find_concepts` of the missing resolver (§4.4) —
every retained Description whose normalized text equals or contains the
normalized query as a substring, not deduplicated per concept. -/
def find_concepts (S : Snapshot) (text : String) : List Description :=
  S.descriptions.filter (fun d => decide ((normalize text).data <:+: (normalize d.term).data))

/-- Modelled from the spec: the recognized clinical-finding semantic type tags
of the primary-description invariant (§3). -/
def recognizedClinicalTypes : List String :=
  ["disorder", "finding"]

/-- Modelled from the spec: a Description qualifies as primary when it is
active, carries Preferred status, and has a recognized clinical-finding type
tag (§3). -/
def isPrimaryDescription (d : Description) : Bool :=
  d.active && decide (d.status = "P") && d.typeTags.any (fun g => decide (g ∈ recognizedClinicalTypes))

/-- Modelled from the spec: `get_primary_concept` of the missing description
index (§4.3) — the single qualifying Description; `NoPrimaryDescription` when
the concept is loaded but none qualifies; `UnknownConcept` when the id is
absent from the snapshot. -/
def get_primary_concept (S : Snapshot) (cui : Nat) : Except SnomedError Description :=
  if cui ∈ S.concepts then
    match S.descriptions.filter (fun d => decide (d.conceptId = cui) && isPrimaryDescription d) with
    | [] => .error (.NoPrimaryDescription cui)
    | d :: _ => .ok d
  else
    .error (.UnknownConcept cui)

/-- Example snapshot echoing the concrete scenario of §8: asthma with one
Preferred clinically-typed description, one Acceptable synonym, and an is-a
edge to its parent disorder. -/
def exSnap : Snapshot :=
  ⟨[195967001, 50043002],
   [⟨195967001, "Asthma (disorder)", "P", "InternationalRF2", ["disorder"], true⟩,
    ⟨195967001, "Asthma", "A", "InternationalRF2", [], true⟩,
    ⟨50043002, "Disorder of respiratory system (disorder)", "P", "InternationalRF2", ["disorder"], true⟩],
   [(195967001, 50043002)]⟩

/-- Modelled from the spec: the direct parents of a concept — the targets of
its retained is-a edges (§4.2, edge direction child → parent). -/
def parentsOf (edges : List (Nat × Nat)) (c : Nat) : List Nat :=
  (edges.filter (fun e => decide (e.1 = c))).map Prod.snd

/-- Modelled from the spec: the direct children of a concept — the sources of
the retained is-a edges pointing to it (§4.2). -/
def childrenOf (edges : List (Nat × Nat)) (c : Nat) : List Nat :=
  (edges.filter (fun e => decide (e.2 = c))).map Prod.fst

/-- Modelled from the spec: `get_parents` of the missing concept graph (§4.2)
— the set of concept ids the query concept points to via is-a edges;
`UnknownConcept` for an identifier absent from the snapshot. -/
def get_parents (S : Snapshot) (cui : Nat) : Except SnomedError (List Nat) :=
  if cui ∈ S.concepts then .ok (parentsOf S.edges cui).dedup
  else .error (.UnknownConcept cui)

/-- Modelled from the spec: `get_children` of the missing concept graph (§4.2)
— the set of concept ids whose is-a edge points to the query concept, empty
(not an error) when there are none; `UnknownConcept` for an absent id. -/
def get_children (S : Snapshot) (cui : Nat) : Except SnomedError (List Nat) :=
  if cui ∈ S.concepts then .ok (childrenOf S.edges cui).dedup
  else .error (.UnknownConcept cui)

/-- Whether concept `a` is reachable from concept `c` by exactly `n` is-a
hops. -/
def reachB (edges : List (Nat × Nat)) : Nat → Nat → Nat → Bool
  | 0, c, a => decide (c = a)
  | n + 1, c, a => (parentsOf edges c).any (fun p => reachB edges n p a)

/-- `k` is the minimum number of is-a hops from `c` to `a`. -/
def IsMinReach (edges : List (Nat × Nat)) (c a k : Nat) : Prop :=
  reachB edges k c a = true ∧ ∀ j, reachB edges j c a = true → k ≤ j

/-- One breadth-first expansion step: the parents of the current frontier that
have not been visited yet, without duplicates. -/
def nextFrontier (edges : List (Nat × Nat)) (visited frontier : List Nat) : List Nat :=
  ((frontier.flatMap (parentsOf edges)).filter (fun x => decide (x ∉ visited))).dedup

/-- Modelled from the spec: the breadth-first expansion of `get_ancestors`
(§4.2) — a concept first discovered at level `level` is recorded at `level`
and never revisited at a larger level; the visited set guarantees termination
(the fuel is shown below never to run out). -/
def bfsAux (edges : List (Nat × Nat)) : Nat → List Nat → List Nat → Nat → List (Nat × Nat)
  | 0, _, _, _ => []
  | fuel + 1, visited, frontier, level =>
    let next := nextFrontier edges visited frontier
    if next = [] then []
    else next.map (fun x => (x, level)) ++ bfsAux edges fuel (visited ++ next) next (level + 1)

/-- The distinct concept ids that can ever be discovered by upward expansion:
the targets of the edge list. -/
def ancTargets (edges : List (Nat × Nat)) : List Nat :=
  (edges.map Prod.snd).dedup

/-- The number of potential discoveries still outside the visited set; the
breadth-first expansion strictly decreases it at every round. -/
def targetsOutside (edges : List (Nat × Nat)) (visited : List Nat) : Nat :=
  ((ancTargets edges).filter (fun x => decide (x ∉ visited))).length

/-- Breadth-first ancestor expansion from `c`, with enough fuel for every
round the visited set permits. -/
def bfsFrom (edges : List (Nat × Nat)) (c : Nat) (fuel : Nat) : List (Nat × Nat) :=
  bfsAux edges fuel [c] [c] 1

/-- Modelled from the spec: `get_ancestors` of the missing traversal engine
(§4.2) — ancestor concept ids paired with their minimum distance from the
query concept, computed breadth-first with a visited set; `CycleDetected`
when the traversal discovers an is-a cycle through the query concept;
`UnknownConcept` for an absent id. -/
def get_ancestors (S : Snapshot) (cui : Nat) : Except SnomedError (List (Nat × Nat)) :=
  if cui ∈ S.concepts then
    if (cui :: (bfsFrom S.edges cui ((ancTargets S.edges).length + 1)).map Prod.fst).any
         (fun x => decide (cui ∈ parentsOf S.edges x))
    then .error (.CycleDetected cui)
    else .ok (bfsFrom S.edges cui ((ancTargets S.edges).length + 1))
  else
    .error (.UnknownConcept cui)

/-- Reachability from `c` within at most `d` hops. -/
def ReachAtMost (edges : List (Nat × Nat)) (c x d : Nat) : Prop :=
  ∃ j, j ≤ d ∧ reachB edges j c x = true

/-- The breadth-first loop invariant: after the frontier of distance `d` has
been produced, the visited set holds exactly the concepts within `d` hops and
the frontier holds exactly those at minimum distance `d`. -/
def BfsInv (edges : List (Nat × Nat)) (c : Nat) (visited frontier : List Nat) (d : Nat) : Prop :=
  (∀ x, x ∈ visited ↔ ReachAtMost edges c x d) ∧
  (∀ x, x ∈ frontier ↔ IsMinReach edges c x d)

/-- Modelled from the spec: a parsed row of the Concept snapshot table (§6). -/
structure ConceptRow where
  id : Nat
  active : Bool
deriving DecidableEq

/-- Modelled from the spec: a parsed row of the Description snapshot table
(§6), already carrying the entity-level tags of §3. -/
structure DescriptionRow where
  id : Nat
  active : Bool
  conceptId : Nat
  term : String
  status : String
  release : String
  typeTags : List String
deriving DecidableEq

/-- Modelled from the spec: a parsed row of the Relationship snapshot table
(§6). -/
structure RelationshipRow where
  id : Nat
  active : Bool
  sourceId : Nat
  destinationId : Nat
  typeId : Nat
deriving DecidableEq

/-- Modelled from the spec: a snapshot directory as the missing loader sees it
— each of the three required files either present (with its parsed rows) or
absent. -/
structure SnapshotDir where
  conceptFile : Option (List ConceptRow)
  descriptionFile : Option (List DescriptionRow)
  relationshipFile : Option (List RelationshipRow)
deriving DecidableEq

/-- Modelled from the spec: the reserved is-a relationship type id (§6). -/
def isATypeId : Nat :=
  116680003

/-- Modelled from the spec: the missing snapshot loader (§4.1) — fails with
`MissingDefinitionFile` naming the absent file when any of the three required
files is not found, otherwise retains active rows and the active is-a edges. -/
def load_snapshot (dir : SnapshotDir) : Except SnomedError Snapshot :=
  match dir.conceptFile with
  | none => .error (.MissingDefinitionFile "Concept")
  | some cs =>
    match dir.descriptionFile with
    | none => .error (.MissingDefinitionFile "Description")
    | some ds =>
      match dir.relationshipFile with
      | none => .error (.MissingDefinitionFile "Relationship")
      | some rs =>
        .ok ⟨(cs.filter (fun r => r.active)).map (fun r => r.id),
             (ds.filter (fun r => r.active)).map
               (fun r => ⟨r.conceptId, r.term, r.status, r.release, r.typeTags, r.active⟩),
             (rs.filter (fun r => r.active && decide (r.typeId = isATypeId))).map
               (fun r => (r.sourceId, r.destinationId))⟩

/-- Truthiness of the resolver result as the notebook guard `if cui:` sees it:
`None` and `0` are falsy, any other id truthy. -/
def truthyCui : Option Nat → Bool
  | some c => decide (c ≠ 0)
  | none => false

/-- The `known` dictionary built by the loop of `automatically_map_conditions`
(src/map_freetext_to_snomed.ipynb): insertion-ordered, one entry per input
string whose resolution is truthy.  A repeated input string overwrites its own
entry with the same value, which leaves the dictionary unchanged, so the
duplicate is skipped here. -/
def mapConditionsKnown (find : String → Option Nat) : List String → List (String × Nat) → List (String × Nat)
  | [], acc => acc
  | s :: rest, acc =>
    mapConditionsKnown find rest
      (match find s with
       | some c =>
         if decide (c ≠ 0) && acc.all (fun p => decide (p.1 ≠ s)) then acc ++ [(s, c)] else acc
       | none => acc)

/-- `automatically_map_conditions` from src/map_freetext_to_snomed.ipynb:
resolve each input string through the resolver, collect the truthy
resolutions into `known`, and return with it the input strings left unknown,
in input order.  The `snomed` argument is embedded as the resolver function
the code calls on it; the progress printing is output-only. -/
def automatically_map_conditions (find : String → Option Nat) (data : List String) :
    List (String × Nat) × List String :=
  let known := mapConditionsKnown find data []
  (known, data.filter (fun s => known.all (fun p => decide (p.1 ≠ s))))

/-- Example graph snapshot with a diamond: concept 4 is reachable from 1 via
2 → 3 → 4 (three hops) and via 5 → 4 (two hops). -/
def exGraph : Snapshot :=
  ⟨[1, 2, 3, 4, 5], [], [(1, 2), (2, 3), (3, 4), (1, 5), (5, 4)]⟩

/-- Example snapshot whose is-a edges form a cycle through concept 1. -/
def cycGraph : Snapshot :=
  ⟨[1, 2], [], [(1, 2), (2, 1)]⟩

example : get_ancestors exGraph 1 = .ok [(2, 1), (5, 1), (3, 2), (4, 2)] := rfl
example : get_ancestors cycGraph 1 = .error (.CycleDetected 1) := rfl
example : get_parents exGraph 1 = .ok [2, 5] := rfl
example : get_children exGraph 2 = .ok [1] := rfl
example : get_children exGraph 1 = .ok [] := rfl
example : automatically_map_conditions (fun t => find_cui exSnap t) ["Asthma", "Chest infection"] =
    ([("Asthma", 195967001)], ["Chest infection"]) := rfl

example : find_cui exSnap "Asthma" = some 195967001 := by decide
example : find_cui exSnap "Asth" = none := by decide
example : find_concepts exSnap "Asth" ≠ [] := by decide
example : get_primary_concept exSnap 195967001 =
    .ok ⟨195967001, "Asthma (disorder)", "P", "InternationalRF2", ["disorder"], true⟩ := rfl

lemma mem_parentsOf {edges : List (Nat × Nat)} {c x : Nat} :
    x ∈ parentsOf edges c ↔ (c, x) ∈ edges := by
  unfold parentsOf
  simp only [List.mem_map, List.mem_filter, decide_eq_true_eq]
  constructor
  · rintro ⟨⟨e1, e2⟩, ⟨he, h1⟩, h2⟩
    simp only at h1 h2
    subst h1
    subst h2
    exact he
  · intro h
    exact ⟨(c, x), ⟨h, rfl⟩, rfl⟩

lemma mem_childrenOf {edges : List (Nat × Nat)} {c x : Nat} :
    x ∈ childrenOf edges c ↔ (x, c) ∈ edges := by
  unfold childrenOf
  simp only [List.mem_map, List.mem_filter, decide_eq_true_eq]
  constructor
  · rintro ⟨⟨e1, e2⟩, ⟨he, h1⟩, h2⟩
    simp only at h1 h2
    subst h1
    subst h2
    exact he
  · intro h
    exact ⟨(x, c), ⟨h, rfl⟩, rfl⟩

lemma reachB_zero {edges : List (Nat × Nat)} {c a : Nat} :
    reachB edges 0 c a = true ↔ c = a := by
  simp [reachB]

lemma reachB_succ {edges : List (Nat × Nat)} {n c a : Nat} :
    reachB edges (n + 1) c a = true ↔ ∃ p ∈ parentsOf edges c, reachB edges n p a = true := by
  simp [reachB, List.any_eq_true]

lemma reachB_one {edges : List (Nat × Nat)} {c a : Nat} :
    reachB edges 1 c a = true ↔ a ∈ parentsOf edges c := by
  rw [reachB_succ]
  simp [reachB_zero]

lemma reachB_snoc {edges : List (Nat × Nat)} :
    ∀ (n c a : Nat), (reachB edges (n + 1) c a = true ↔
      ∃ f, reachB edges n c f = true ∧ a ∈ parentsOf edges f) := by
  intro n
  induction n with
  | zero =>
    intro c a
    rw [reachB_one]
    constructor
    · intro h
      exact ⟨c, reachB_zero.mpr rfl, h⟩
    · rintro ⟨f, hf, ha⟩
      rw [← reachB_zero.mp hf] at ha
      exact ha
  | succ n ih =>
    intro c a
    rw [reachB_succ]
    constructor
    · rintro ⟨p, hp, hr⟩
      obtain ⟨f, hf, ha⟩ := (ih p a).mp hr
      exact ⟨f, reachB_succ.mpr ⟨p, hp, hf⟩, ha⟩
    · rintro ⟨f, hf, ha⟩
      obtain ⟨p, hp, hr⟩ := reachB_succ.mp hf
      exact ⟨p, hp, (ih p a).mpr ⟨f, hr, ha⟩⟩

lemma exists_isMinReach {edges : List (Nat × Nat)} {c a j : Nat}
    (h : reachB edges j c a = true) : ∃ k, k ≤ j ∧ IsMinReach edges c a k := by
  have hex : ∃ n, reachB edges n c a = true := ⟨j, h⟩
  exact ⟨Nat.find hex, Nat.find_min' hex h, Nat.find_spec hex, fun i hi => Nat.find_min' hex hi⟩

lemma isMinReach_unique {edges : List (Nat × Nat)} {c a k k' : Nat}
    (h : IsMinReach edges c a k) (h' : IsMinReach edges c a k') : k = k' :=
  Nat.le_antisymm (h.2 _ h'.1) (h'.2 _ h.1)

lemma mem_nextFrontier {edges : List (Nat × Nat)} {visited frontier : List Nat} {x : Nat} :
    x ∈ nextFrontier edges visited frontier ↔
      (∃ f ∈ frontier, x ∈ parentsOf edges f) ∧ x ∉ visited := by
  unfold nextFrontier
  simp [List.mem_dedup, List.mem_filter, List.mem_flatMap]

lemma mem_nextFrontier_inv {edges : List (Nat × Nat)} {c : Nat}
    {visited frontier : List Nat} {d x : Nat}
    (hInv : BfsInv edges c visited frontier d) :
    x ∈ nextFrontier edges visited frontier ↔ IsMinReach edges c x (d + 1) := by
  rw [mem_nextFrontier]
  constructor
  · rintro ⟨⟨f, hf, hx⟩, hnv⟩
    have hfmin := (hInv.2 f).mp hf
    have hreach : reachB edges (d + 1) c x = true := (reachB_snoc d c x).mpr ⟨f, hfmin.1, hx⟩
    refine ⟨hreach, ?_⟩
    intro j hj
    by_contra hlt
    push_neg at hlt
    exact hnv ((hInv.1 x).mpr ⟨j, by omega, hj⟩)
  · rintro ⟨hreach, hmin⟩
    obtain ⟨f, hf, hx⟩ := (reachB_snoc d c x).mp hreach
    obtain ⟨m, hm, hfm⟩ := exists_isMinReach hf
    have hmd : m = d := by
      rcases Nat.lt_or_ge m d with hlt | hge
      · exfalso
        have hx' : reachB edges (m + 1) c x = true := (reachB_snoc m c x).mpr ⟨f, hfm.1, hx⟩
        have := hmin _ hx'
        omega
      · omega
    subst hmd
    refine ⟨⟨f, (hInv.2 f).mpr hfm, hx⟩, ?_⟩
    intro hv
    obtain ⟨j, hj, hr⟩ := (hInv.1 x).mp hv
    have := hmin _ hr
    omega

lemma bfsInv_step {edges : List (Nat × Nat)} {c : Nat}
    {visited frontier : List Nat} {d : Nat}
    (hInv : BfsInv edges c visited frontier d) :
    BfsInv edges c (visited ++ nextFrontier edges visited frontier)
      (nextFrontier edges visited frontier) (d + 1) := by
  constructor
  · intro x
    rw [List.mem_append, mem_nextFrontier_inv hInv, hInv.1 x]
    constructor
    · rintro (⟨j, hj, hr⟩ | ⟨hr, _⟩)
      · exact ⟨j, by omega, hr⟩
      · exact ⟨d + 1, le_refl _, hr⟩
    · rintro ⟨j, hj, hr⟩
      obtain ⟨m, hm, hmin⟩ := exists_isMinReach hr
      rcases Nat.lt_or_ge m (d + 1) with hlt | hge
      · exact Or.inl ⟨m, by omega, hmin.1⟩
      · have : m = d + 1 := by omega
        exact Or.inr (this ▸ hmin)
  · intro x
    exact mem_nextFrontier_inv hInv

lemma no_minReach_of_nextFrontier_nil {edges : List (Nat × Nat)} {c : Nat}
    {visited frontier : List Nat} {d : Nat}
    (hInv : BfsInv edges c visited frontier d)
    (hnil : nextFrontier edges visited frontier = []) :
    ∀ m a, ¬ IsMinReach edges c a (d + 1 + m) := by
  intro m
  induction m with
  | zero =>
    intro a ha
    have : a ∈ nextFrontier edges visited frontier := (mem_nextFrontier_inv hInv).mpr ha
    rw [hnil] at this
    exact absurd this (List.not_mem_nil a)
  | succ m ih =>
    intro a ha
    obtain ⟨f, hf, hx⟩ := (reachB_snoc (d + 1 + m) c a).mp ha.1
    obtain ⟨j, hj, hjmin⟩ := exists_isMinReach hf
    have hxa : reachB edges (j + 1) c a = true := (reachB_snoc j c a).mpr ⟨f, hjmin.1, hx⟩
    have := ha.2 _ hxa
    have hjd : j = d + 1 + m := by omega
    exact ih f (hjd ▸ hjmin)

lemma length_filter_mono {A : Type} (l : List A) (p q : A → Bool)
    (himp : ∀ x, q x = true → p x = true) :
    (l.filter q).length ≤ (l.filter p).length := by
  induction l with
  | nil => simp
  | cons a t ih =>
    rw [List.filter_cons, List.filter_cons]
    by_cases hq : q a = true
    · rw [if_pos hq, if_pos (himp a hq)]
      simpa using ih
    · rw [if_neg (by simp [hq])]
      by_cases hp : p a = true
      · rw [if_pos hp]
        exact Nat.le_succ_of_le ih
      · rw [if_neg (by simp [hp])]
        exact ih

lemma length_filter_lt {A : Type} (l : List A) (p q : A → Bool)
    (himp : ∀ x, q x = true → p x = true)
    (y : A) (hy : y ∈ l) (hpy : p y = true) (hqy : q y = false) :
    (l.filter q).length < (l.filter p).length := by
  induction l with
  | nil => cases hy
  | cons a t ih =>
    rw [List.filter_cons, List.filter_cons]
    rcases List.mem_cons.mp hy with rfl | hyt
    · rw [if_pos hpy, if_neg (by simp [hqy])]
      exact Nat.lt_succ_of_le (length_filter_mono t p q himp)
    · by_cases hq : q a = true
      · rw [if_pos hq, if_pos (himp a hq)]
        simpa using ih hyt
      · rw [if_neg (by simp [hq])]
        by_cases hp : p a = true
        · rw [if_pos hp]
          exact Nat.lt_succ_of_lt (ih hyt)
        · rw [if_neg (by simp [hp])]
          exact ih hyt

lemma nextFrontier_subset_targets {edges : List (Nat × Nat)}
    {visited frontier : List Nat} {x : Nat}
    (hx : x ∈ nextFrontier edges visited frontier) : x ∈ ancTargets edges := by
  obtain ⟨⟨f, _, hpar⟩, _⟩ := mem_nextFrontier.mp hx
  have he : (f, x) ∈ edges := mem_parentsOf.mp hpar
  unfold ancTargets
  rw [List.mem_dedup]
  exact List.mem_map.mpr ⟨(f, x), he, rfl⟩

lemma targetsOutside_lt {edges : List (Nat × Nat)} {visited frontier : List Nat}
    (hne : nextFrontier edges visited frontier ≠ []) :
    targetsOutside edges (visited ++ nextFrontier edges visited frontier) <
      targetsOutside edges visited := by
  obtain ⟨y, hy⟩ := List.exists_mem_of_ne_nil _ hne
  obtain ⟨_, hynv⟩ := mem_nextFrontier.mp hy
  apply length_filter_lt
  · intro x hx
    rw [decide_eq_true_eq] at hx
    rw [decide_eq_true_eq]
    intro hxv
    exact hx (List.mem_append.mpr (Or.inl hxv))
  · exact nextFrontier_subset_targets hy
  · exact decide_eq_true hynv
  · rw [decide_eq_false_iff_not]
    intro hcon
    exact hcon (List.mem_append.mpr (Or.inr hy))

lemma bfsAux_succ (edges : List (Nat × Nat)) (fuel : Nat)
    (visited frontier : List Nat) (level : Nat) :
    bfsAux edges (fuel + 1) visited frontier level =
      if nextFrontier edges visited frontier = [] then []
      else (nextFrontier edges visited frontier).map (fun x => (x, level)) ++
        bfsAux edges fuel (visited ++ nextFrontier edges visited frontier)
          (nextFrontier edges visited frontier) (level + 1) := rfl

lemma bfsAux_mem (edges : List (Nat × Nat)) (c : Nat) :
    ∀ (fuel : Nat) (visited frontier : List Nat) (d : Nat),
      BfsInv edges c visited frontier d →
      targetsOutside edges visited < fuel →
      ∀ a k, ((a, k) ∈ bfsAux edges fuel visited frontier (d + 1) ↔
        (d + 1 ≤ k ∧ IsMinReach edges c a k)) := by
  intro fuel
  induction fuel with
  | zero =>
    intro visited frontier d _ hfuel
    exact absurd hfuel (Nat.not_lt_zero _)
  | succ fuel ih =>
    intro visited frontier d hInv hfuel a k
    rw [bfsAux_succ]
    by_cases hnil : nextFrontier edges visited frontier = []
    · rw [if_pos hnil]
      constructor
      · intro h
        exact absurd h (List.not_mem_nil _)
      · rintro ⟨hk, hmin⟩
        exfalso
        have hk2 : k = d + 1 + (k - (d + 1)) := by omega
        exact no_minReach_of_nextFrontier_nil hInv hnil (k - (d + 1)) a (hk2 ▸ hmin)
    · rw [if_neg hnil, List.mem_append]
      have hdec := targetsOutside_lt hnil
      have hrec := ih (visited ++ nextFrontier edges visited frontier)
        (nextFrontier edges visited frontier) (d + 1) (bfsInv_step hInv) (by omega) a k
      rw [hrec]
      constructor
      · rintro (hmap | ⟨hk, hmin⟩)
        · obtain ⟨x, hx, heq⟩ := List.mem_map.mp hmap
          injection heq with h1 h2
          subst h1
          subst h2
          exact ⟨le_refl _, (mem_nextFrontier_inv hInv).mp hx⟩
        · exact ⟨by omega, hmin⟩
      · rintro ⟨hk, hmin⟩
        rcases Nat.eq_or_lt_of_le hk with heq | hlt
        · subst heq
          left
          exact List.mem_map.mpr ⟨a, (mem_nextFrontier_inv hInv).mpr hmin, rfl⟩
        · right
          exact ⟨by omega, hmin⟩

lemma bfsAux_fst_nodup (edges : List (Nat × Nat)) (c : Nat) :
    ∀ (fuel : Nat) (visited frontier : List Nat) (d : Nat),
      BfsInv edges c visited frontier d →
      targetsOutside edges visited < fuel →
      ((bfsAux edges fuel visited frontier (d + 1)).map Prod.fst).Nodup := by
  intro fuel
  induction fuel with
  | zero =>
    intro visited frontier d _ hfuel
    exact absurd hfuel (Nat.not_lt_zero _)
  | succ fuel ih =>
    intro visited frontier d hInv hfuel
    rw [bfsAux_succ]
    by_cases hnil : nextFrontier edges visited frontier = []
    · rw [if_pos hnil]
      simp
    · rw [if_neg hnil, List.map_append, List.map_map]
      have hdec := targetsOutside_lt hnil
      have hcomp : ((nextFrontier edges visited frontier).map
          (Prod.fst ∘ fun x => (x, d + 1))) = nextFrontier edges visited frontier := by
        rw [show (Prod.fst ∘ fun x : Nat => (x, d + 1)) = id from rfl, List.map_id]
      rw [hcomp]
      apply List.Nodup.append
      · exact List.nodup_dedup _
      · exact ih _ _ _ (bfsInv_step hInv) (by omega)
      · intro x hx hx2
        obtain ⟨⟨a, k⟩, hmem, hfst⟩ := List.mem_map.mp hx2
        simp only at hfst
        subst hfst
        have h1 := (mem_nextFrontier_inv hInv).mp hx
        have h2 := (bfsAux_mem edges c fuel _ _ (d + 1) (bfsInv_step hInv) (by omega) a k).mp hmem
        have := isMinReach_unique h1 h2.2
        omega

lemma bfsAux_stable (edges : List (Nat × Nat)) :
    ∀ (n : Nat) (visited frontier : List Nat) (level f g : Nat),
      targetsOutside edges visited ≤ n →
      targetsOutside edges visited < f →
      targetsOutside edges visited < g →
      bfsAux edges f visited frontier level = bfsAux edges g visited frontier level := by
  intro n
  induction n with
  | zero =>
    intro visited frontier level f g hn h1 h2
    obtain ⟨a, rfl⟩ : ∃ a, f = a + 1 := ⟨f - 1, by omega⟩
    obtain ⟨b, rfl⟩ : ∃ b, g = b + 1 := ⟨g - 1, by omega⟩
    rw [bfsAux_succ, bfsAux_succ]
    by_cases hnil : nextFrontier edges visited frontier = []
    · rw [if_pos hnil, if_pos hnil]
    · exfalso
      have := targetsOutside_lt hnil
      omega
  | succ n ih =>
    intro visited frontier level f g hn h1 h2
    obtain ⟨a, rfl⟩ : ∃ a, f = a + 1 := ⟨f - 1, by omega⟩
    obtain ⟨b, rfl⟩ : ∃ b, g = b + 1 := ⟨g - 1, by omega⟩
    rw [bfsAux_succ, bfsAux_succ]
    by_cases hnil : nextFrontier edges visited frontier = []
    · rw [if_pos hnil, if_pos hnil]
    · rw [if_neg hnil, if_neg hnil]
      have := targetsOutside_lt hnil
      rw [ih _ _ (level + 1) a b (by omega) (by omega) (by omega)]

lemma bfsInv_init (edges : List (Nat × Nat)) (c : Nat) : BfsInv edges c [c] [c] 0 := by
  constructor
  · intro x
    simp only [List.mem_singleton]
    constructor
    · rintro rfl
      exact ⟨0, le_refl _, reachB_zero.mpr rfl⟩
    · rintro ⟨j, hj, hr⟩
      have hj0 : j = 0 := by omega
      subst hj0
      exact (reachB_zero.mp hr).symm
  · intro x
    simp only [List.mem_singleton]
    constructor
    · rintro rfl
      exact ⟨reachB_zero.mpr rfl, fun j _ => Nat.zero_le j⟩
    · rintro ⟨hr, _⟩
      exact (reachB_zero.mp hr).symm

lemma targetsOutside_init_lt (edges : List (Nat × Nat)) (c : Nat) :
    targetsOutside edges [c] < (ancTargets edges).length + 1 :=
  Nat.lt_succ_of_le (List.length_filter_le _ _)

lemma bfsFrom_mem {edges : List (Nat × Nat)} {c : Nat} (a k : Nat) :
    ((a, k) ∈ bfsFrom edges c ((ancTargets edges).length + 1) ↔
      (1 ≤ k ∧ IsMinReach edges c a k)) :=
  bfsAux_mem edges c _ [c] [c] 0 (bfsInv_init edges c) (targetsOutside_init_lt edges c) a k

lemma bfsFrom_fst_nodup (edges : List (Nat × Nat)) (c : Nat) :
    ((bfsFrom edges c ((ancTargets edges).length + 1)).map Prod.fst).Nodup :=
  bfsAux_fst_nodup edges c _ [c] [c] 0 (bfsInv_init edges c) (targetsOutside_init_lt edges c)

lemma get_ancestors_ok_elim {S : Snapshot} {c : Nat} {A : List (Nat × Nat)}
    (hA : get_ancestors S c = .ok A) :
    c ∈ S.concepts ∧ A = bfsFrom S.edges c ((ancTargets S.edges).length + 1) ∧
      ((c :: A.map Prod.fst).any (fun x => decide (c ∈ parentsOf S.edges x))) = false := by
  unfold get_ancestors at hA
  by_cases hc : c ∈ S.concepts
  · rw [if_pos hc] at hA
    by_cases hcyc : ((c :: (bfsFrom S.edges c ((ancTargets S.edges).length + 1)).map Prod.fst).any
        (fun x => decide (c ∈ parentsOf S.edges x))) = true
    · rw [if_pos hcyc] at hA
      cases hA
    · rw [if_neg hcyc] at hA
      have hAe : bfsFrom S.edges c ((ancTargets S.edges).length + 1) = A := Except.ok.inj hA
      subst hAe
      exact ⟨hc, rfl, Bool.not_eq_true _ ▸ hcyc⟩
  · rw [if_neg hc] at hA
    cases hA

lemma get_ancestors_cycle_iff {S : Snapshot} {c : Nat} (hc : c ∈ S.concepts) :
    (get_ancestors S c = .error (.CycleDetected c) ↔
      ∃ k, reachB S.edges (k + 1) c c = true) := by
  unfold get_ancestors
  rw [if_pos hc]
  by_cases hcyc : ((c :: (bfsFrom S.edges c ((ancTargets S.edges).length + 1)).map Prod.fst).any
      (fun x => decide (c ∈ parentsOf S.edges x))) = true
  · rw [if_pos hcyc]
    obtain ⟨x, hx, hpar⟩ := List.any_eq_true.mp hcyc
    rw [decide_eq_true_eq] at hpar
    apply iff_of_true rfl
    rcases List.mem_cons.mp hx with rfl | hx2
    · exact ⟨0, reachB_one.mpr hpar⟩
    · obtain ⟨⟨a, k⟩, hmem, hfst⟩ := List.mem_map.mp hx2
      simp only at hfst
      subst hfst
      have := (bfsFrom_mem a k).mp hmem
      exact ⟨k, (reachB_snoc k c c).mpr ⟨a, this.2.1, hpar⟩⟩
  · rw [if_neg hcyc]
    apply iff_of_false (by simp)
    rintro ⟨k, hk⟩
    apply hcyc
    obtain ⟨f, hf, hpar⟩ := (reachB_snoc k c c).mp hk
    obtain ⟨m, hm, hmin⟩ := exists_isMinReach hf
    apply List.any_eq_true.mpr
    rcases Nat.eq_zero_or_pos m with rfl | hpos
    · have hcf : c = f := reachB_zero.mp hmin.1
      subst hcf
      exact ⟨c, List.mem_cons_self _ _, decide_eq_true hpar⟩
    · refine ⟨f, List.mem_cons.mpr (Or.inr ?_), decide_eq_true hpar⟩
      exact List.mem_map.mpr ⟨(f, m), (bfsFrom_mem f m).mpr ⟨hpos, hmin⟩, rfl⟩

lemma anc_level_one {S : Snapshot} {c : Nat} {A : List (Nat × Nat)}
    (hA : get_ancestors S c = .ok A) :
    ∀ p, ((p, 1) ∈ A ↔ p ∈ parentsOf S.edges c) := by
  obtain ⟨hc, hAe, hcyc⟩ := get_ancestors_ok_elim hA
  subst hAe
  intro p
  rw [bfsFrom_mem p 1]
  constructor
  · rintro ⟨_, hr, _⟩
    exact reachB_one.mp hr
  · intro hp
    refine ⟨le_refl 1, reachB_one.mpr hp, ?_⟩
    intro j hj
    rcases Nat.eq_zero_or_pos j with rfl | h
    · exfalso
      have hcp : c = p := reachB_zero.mp hj
      subst hcp
      have : ((c :: (bfsFrom S.edges c ((ancTargets S.edges).length + 1)).map Prod.fst).any
          (fun x => decide (c ∈ parentsOf S.edges x))) = true :=
        List.any_eq_true.mpr ⟨c, List.mem_cons_self _ _, decide_eq_true hp⟩
      rw [hcyc] at this
      cases this
    · exact h

lemma mem_invertedIndex {S : Snapshot} {key : String} {c : Nat} :
    c ∈ invertedIndex S key ↔
      ∃ d ∈ S.descriptions, normalize d.term = key ∧ d.conceptId = c := by
  unfold invertedIndex
  rw [List.mem_dedup]
  simp only [List.mem_map, List.mem_filter, decide_eq_true_eq]
  constructor
  · rintro ⟨d, ⟨hd, hkey⟩, hc⟩
    exact ⟨d, hd, hkey, hc⟩
  · rintro ⟨d, hd, hkey, hc⟩
    exact ⟨d, ⟨hd, hkey⟩, hc⟩

lemma nodup_eq_singleton {l : List Nat} {c : Nat} (hn : l.Nodup)
    (hc : c ∈ l) (hall : ∀ x ∈ l, x = c) : l = [c] := by
  cases l with
  | nil => cases hc
  | cons a t =>
    have ha : a = c := hall a (List.mem_cons_self _ _)
    subst ha
    cases t with
    | nil => rfl
    | cons b u =>
      exfalso
      have hb : b = a := hall b (List.mem_cons.mpr (Or.inr (List.mem_cons_self _ _)))
      subst hb
      exact (List.nodup_cons.mp hn).1 (List.mem_cons_self _ _)

lemma find_cui_eq_some_iff {S : Snapshot} {t : String} {c : Nat} :
    find_cui S t = some c ↔ invertedIndex S (normalize t) = [c] := by
  unfold find_cui
  cases h : invertedIndex S (normalize t) with
  | nil => simp
  | cons a l =>
    cases l with
    | nil => simp
    | cons b u => simp

/-- C1: for every query text, `find_cui` returns a single concept identifier
exactly when the case-folded text maps, in the inverted index, to
descriptions of exactly one concept; with no match or with two or more
matching concepts it returns nothing, never a best guess. -/
theorem C1_find_cui_single_exact_match (S : Snapshot) (t : String) :
    (∀ c, (find_cui S t = some c ↔
      (∃ d ∈ S.descriptions, normalize d.term = normalize t ∧ d.conceptId = c) ∧
      (∀ d ∈ S.descriptions, normalize d.term = normalize t → d.conceptId = c))) ∧
    (find_cui S t = none ↔
      ¬ ∃ c, (∃ d ∈ S.descriptions, normalize d.term = normalize t ∧ d.conceptId = c) ∧
        (∀ d ∈ S.descriptions, normalize d.term = normalize t → d.conceptId = c)) := by
  have hmain : ∀ c, (find_cui S t = some c ↔
      (∃ d ∈ S.descriptions, normalize d.term = normalize t ∧ d.conceptId = c) ∧
      (∀ d ∈ S.descriptions, normalize d.term = normalize t → d.conceptId = c)) := by
    intro c
    rw [find_cui_eq_some_iff]
    constructor
    · intro h
      constructor
      · have : c ∈ invertedIndex S (normalize t) := by rw [h]; exact List.mem_cons_self _ _
        exact mem_invertedIndex.mp this
      · intro d hd hkey
        have : d.conceptId ∈ invertedIndex S (normalize t) :=
          mem_invertedIndex.mpr ⟨d, hd, hkey, rfl⟩
        rw [h, List.mem_singleton] at this
        exact this
    · rintro ⟨⟨d, hd, hkey, hc⟩, hall⟩
      apply nodup_eq_singleton (List.nodup_dedup _)
      · exact mem_invertedIndex.mpr ⟨d, hd, hkey, hc⟩
      · intro x hx
        obtain ⟨e, he, hek, hex⟩ := mem_invertedIndex.mp hx
        rw [← hex]
        exact hall e he hek
  refine ⟨hmain, ?_, ?_⟩
  · intro hnone
    rintro ⟨c, hc⟩
    rw [(hmain c).mpr hc] at hnone
    cases hnone
  · intro hno
    cases h : find_cui S t with
    | none => rfl
    | some c => exact absurd ⟨c, (hmain c).mp h⟩ hno

/-- Witness for C1 at the concrete §8 snapshot: "Asthma" resolves to the
single matching concept. -/
theorem C1_witness : find_cui exSnap "Asthma" = some 195967001 :=
  ((C1_find_cui_single_exact_match exSnap "Asthma").1 195967001).mpr ⟨by decide, by decide⟩

/-- C8: `find_cui` is invariant under changes of letter case of its input,
because normalization is case-folding and nothing else. -/
theorem C8_find_cui_case_insensitive (S : Snapshot) (t u : String)
    (h : normalize t = normalize u) : find_cui S t = find_cui S u := by
  unfold find_cui
  rw [h]

/-- Witness for C8: upper-case and lower-case spellings of asthma resolve
identically on the concrete snapshot. -/
theorem C8_witness : find_cui exSnap "ASTHMA" = find_cui exSnap "asthma" :=
  C8_find_cui_case_insensitive exSnap "ASTHMA" "asthma" (by decide)

/-- C5: `find_concepts` returns exactly the loaded Descriptions whose
case-folded text equals or contains the case-folded query as a substring,
with multiplicities preserved (no per-concept deduplication); and a text on
which `find_cui` has no match can still have `find_concepts` rows. -/
theorem C5_find_concepts_substring_rows (S : Snapshot) (t : String) :
    (∀ d, d ∈ find_concepts S t ↔
      (d ∈ S.descriptions ∧ (normalize t).data <:+: (normalize d.term).data)) ∧
    (∀ d, (find_concepts S t).count d =
      if (normalize t).data <:+: (normalize d.term).data then S.descriptions.count d else 0) ∧
    (find_cui exSnap "Asth" = none ∧ find_concepts exSnap "Asth" ≠ []) := by
  refine ⟨?_, ?_, by decide, by decide⟩
  · intro d
    unfold find_concepts
    rw [List.mem_filter, decide_eq_true_eq]
  · intro d
    unfold find_concepts
    by_cases hd : (normalize t).data <:+: (normalize d.term).data
    · rw [if_pos hd]
      exact List.count_filter (decide_eq_true hd)
    · rw [if_neg hd]
      rw [List.count_eq_zero]
      intro hmem
      exact hd (of_decide_eq_true (List.mem_filter.mp hmem).2)

/-- Witness for C5: "Asth" has no exact-match concept yet has partial-match
rows on the concrete snapshot. -/
theorem C5_witness : find_cui exSnap "Asth" = none ∧ find_concepts exSnap "Asth" ≠ [] :=
  (C5_find_concepts_substring_rows exSnap "Asth").2.2

/-- C9: `get_primary_concept` returns a Description that is active, Preferred
and clinically typed; it fails with `NoPrimaryDescription` exactly on a
loaded concept with no qualifying Description, with `UnknownConcept` exactly
on an unloaded identifier, and succeeds exactly otherwise — no default is
ever substituted. -/
theorem C9_get_primary_concept_failures (S : Snapshot) (cui : Nat) :
    (get_primary_concept S cui = .error (.UnknownConcept cui) ↔ cui ∉ S.concepts) ∧
    (get_primary_concept S cui = .error (.NoPrimaryDescription cui) ↔
      cui ∈ S.concepts ∧ ∀ d ∈ S.descriptions, d.conceptId = cui → isPrimaryDescription d = false) ∧
    (∀ d, get_primary_concept S cui = .ok d →
      d ∈ S.descriptions ∧ d.conceptId = cui ∧ isPrimaryDescription d = true) ∧
    ((cui ∈ S.concepts ∧ ∃ d ∈ S.descriptions, d.conceptId = cui ∧ isPrimaryDescription d = true) ↔
      ∃ d, get_primary_concept S cui = .ok d) := by
  unfold get_primary_concept
  by_cases hcui : cui ∈ S.concepts
  · rw [if_pos hcui]
    cases hfil : S.descriptions.filter (fun d => decide (d.conceptId = cui) && isPrimaryDescription d) with
    | nil =>
      refine ⟨?_, ?_, ?_, ?_⟩
      · simp [hcui]
      · constructor
        · intro _
          refine ⟨hcui, ?_⟩
          intro d hd hdc
          by_contra hprim
          rw [Bool.not_eq_false] at hprim
          have hmem : d ∈ S.descriptions.filter
              (fun d => decide (d.conceptId = cui) && isPrimaryDescription d) :=
            List.mem_filter.mpr ⟨hd, by rw [Bool.and_eq_true]; exact ⟨decide_eq_true hdc, hprim⟩⟩
          rw [hfil] at hmem
          exact absurd hmem (List.not_mem_nil _)
        · intro _
          rfl
      · intro d hd
        cases hd
      · constructor
        · rintro ⟨_, d, hd, hdc, hprim⟩
          exfalso
          have hmem : d ∈ S.descriptions.filter
              (fun d => decide (d.conceptId = cui) && isPrimaryDescription d) :=
            List.mem_filter.mpr ⟨hd, by rw [Bool.and_eq_true]; exact ⟨decide_eq_true hdc, hprim⟩⟩
          rw [hfil] at hmem
          exact absurd hmem (List.not_mem_nil _)
        · rintro ⟨d, hd⟩
          cases hd
    | cons d0 rest =>
      have hd0 : d0 ∈ S.descriptions.filter
          (fun d => decide (d.conceptId = cui) && isPrimaryDescription d) := by
        rw [hfil]
        exact List.mem_cons_self _ _
      obtain ⟨hmem0, hcond0⟩ := List.mem_filter.mp hd0
      rw [Bool.and_eq_true, decide_eq_true_eq] at hcond0
      refine ⟨?_, ?_, ?_, ?_⟩
      · simp [hcui]
      · constructor
        · intro h
          cases h
        · rintro ⟨_, hall⟩
          exfalso
          have := hall d0 hmem0 hcond0.1
          rw [hcond0.2] at this
          cases this
      · intro d hd
        have hde : d0 = d := Except.ok.inj hd
        subst hde
        exact ⟨hmem0, hcond0.1, hcond0.2⟩
      · exact iff_of_true ⟨hcui, d0, hmem0, hcond0.1, hcond0.2⟩ ⟨d0, rfl⟩
  · rw [if_neg hcui]
    refine ⟨?_, ?_, ?_, ?_⟩
    · simp [hcui]
    · constructor
      · intro h
        simp at h
      · rintro ⟨hc, _⟩
        exact absurd hc hcui
    · intro d hd
      cases hd
    · constructor
      · rintro ⟨hc, _⟩
        exact absurd hc hcui
      · rintro ⟨d, hd⟩
        cases hd

/-- Witness for C9: querying an identifier absent from the concrete snapshot
fails with `UnknownConcept`. -/
theorem C9_witness : get_primary_concept exSnap 7 = .error (.UnknownConcept 7) :=
  ((C9_get_primary_concept_failures exSnap 7).1).mpr (by decide)

/-- C4: loading from a directory missing any of the three required snapshot
files fails with `MissingDefinitionFile` naming an absent file, and a
successful load implies all three files were present. -/
theorem C4_load_missing_file (dir : SnapshotDir) :
    ((dir.conceptFile = none ∨ dir.descriptionFile = none ∨ dir.relationshipFile = none) →
      ∃ name, load_snapshot dir = .error (.MissingDefinitionFile name) ∧
        ((name = "Concept" ∧ dir.conceptFile = none) ∨
         (name = "Description" ∧ dir.descriptionFile = none) ∨
         (name = "Relationship" ∧ dir.relationshipFile = none))) ∧
    (∀ s, load_snapshot dir = .ok s →
      dir.conceptFile.isSome ∧ dir.descriptionFile.isSome ∧ dir.relationshipFile.isSome) := by
  obtain ⟨cf, df, rf⟩ := dir
  constructor
  · intro hmiss
    cases cf with
    | none => exact ⟨"Concept", rfl, Or.inl ⟨rfl, rfl⟩⟩
    | some cs =>
      cases df with
      | none => exact ⟨"Description", rfl, Or.inr (Or.inl ⟨rfl, rfl⟩)⟩
      | some ds =>
        cases rf with
        | none => exact ⟨"Relationship", rfl, Or.inr (Or.inr ⟨rfl, rfl⟩)⟩
        | some rs =>
          exfalso
          rcases hmiss with h | h | h <;> simp at h
  · intro s hs
    cases cf with
    | none => cases hs
    | some cs =>
      cases df with
      | none => cases hs
      | some ds =>
        cases rf with
        | none => cases hs
        | some rs => exact ⟨rfl, rfl, rfl⟩

/-- Example directory for the C4 witness: the Relationship table is absent. -/
def exDirNoRel : SnapshotDir :=
  ⟨some [], some [], none⟩

/-- Witness for C4: the directory without a Relationship file loads to a
`MissingDefinitionFile` error naming an absent file. -/
theorem C4_witness : ∃ name, load_snapshot exDirNoRel = .error (.MissingDefinitionFile name) ∧
    ((name = "Concept" ∧ exDirNoRel.conceptFile = none) ∨
     (name = "Description" ∧ exDirNoRel.descriptionFile = none) ∨
     (name = "Relationship" ∧ exDirNoRel.relationshipFile = none)) :=
  (C4_load_missing_file exDirNoRel).1 (Or.inr (Or.inr rfl))

/-- C2: `get_ancestors` records every ancestor at its minimum is-a path
length from the query concept — an entry `(a, k)` exists exactly when `k ≥ 1`
is the least number of hops reaching `a`; each ancestor appears exactly once;
and the level-1 entries are exactly the direct parents. -/
theorem C2_get_ancestors_min_level (S : Snapshot) (c : Nat) (A : List (Nat × Nat))
    (_hc : c ∈ S.concepts) (hA : get_ancestors S c = .ok A) :
    (∀ a k, ((a, k) ∈ A ↔ (1 ≤ k ∧ IsMinReach S.edges c a k))) ∧
    (A.map Prod.fst).Nodup ∧
    (∀ p, ((p, 1) ∈ A ↔ p ∈ parentsOf S.edges c)) := by
  obtain ⟨_, hAe, _⟩ := get_ancestors_ok_elim hA
  refine ⟨?_, ?_, anc_level_one hA⟩
  · intro a k
    rw [hAe]
    exact bfsFrom_mem a k
  · rw [hAe]
    exact bfsFrom_fst_nodup _ _

/-- Witness for C2 on the diamond graph: concept 4, reachable from 1 in two
hops via 5 and in three hops via 2 → 3, is recorded at level 2, which is the
minimum hop count. -/
theorem C2_witness : 1 ≤ 2 ∧ IsMinReach exGraph.edges 1 4 2 :=
  ((C2_get_ancestors_min_level exGraph 1 [(2, 1), (5, 1), (3, 2), (4, 2)]
    (by decide) rfl).1 4 2).mp (by decide)

/-- C3: the breadth-first traversal of `get_ancestors` terminates on every
graph — its result is stable once the fuel covers the visited-set bound, a
loaded query either succeeds or reports `CycleDetected`, and `CycleDetected`
is reported exactly when the is-a edges close a cycle through the query
concept. -/
theorem C3_get_ancestors_terminates (edges : List (Nat × Nat)) (c fuel : Nat)
    (S : Snapshot) (q : Nat)
    (hfuel : (ancTargets edges).length + 1 ≤ fuel) (hq : q ∈ S.concepts) :
    bfsFrom edges c fuel = bfsFrom edges c ((ancTargets edges).length + 1) ∧
    ((∃ A, get_ancestors S q = .ok A) ∨ get_ancestors S q = .error (.CycleDetected q)) ∧
    (get_ancestors S q = .error (.CycleDetected q) ↔ ∃ k, reachB S.edges (k + 1) q q = true) := by
  refine ⟨?_, ?_, get_ancestors_cycle_iff hq⟩
  · unfold bfsFrom
    have hinit := targetsOutside_init_lt edges c
    exact bfsAux_stable edges (targetsOutside edges [c]) [c] [c] 1 fuel _
      (le_refl _) (by omega) hinit
  · unfold get_ancestors
    rw [if_pos hq]
    by_cases hcyc : ((q :: (bfsFrom S.edges q ((ancTargets S.edges).length + 1)).map Prod.fst).any
        (fun x => decide (q ∈ parentsOf S.edges x))) = true
    · right
      rw [if_pos hcyc]
    · left
      exact ⟨_, by rw [if_neg hcyc]⟩

/-- Witness for C3: on the two-concept cycle the traversal returns
`CycleDetected` (rather than failing to terminate). -/
theorem C3_witness : get_ancestors cycGraph 1 = .error (.CycleDetected 1) :=
  (C3_get_ancestors_terminates cycGraph.edges 1 3 cycGraph 1 (by decide) (by decide)).2.2.mpr
    ⟨1, by decide⟩

/-- C6: the concept identifiers at level 1 of `get_ancestors` are exactly the
set returned by `get_parents`. -/
theorem C6_level_one_eq_parents (S : Snapshot) (c : Nat)
    (A : List (Nat × Nat)) (P : List Nat)
    (hc : c ∈ S.concepts) (hA : get_ancestors S c = .ok A) (hP : get_parents S c = .ok P) :
    ∀ p, ((p, 1) ∈ A ↔ p ∈ P) := by
  intro p
  rw [anc_level_one hA p]
  unfold get_parents at hP
  rw [if_pos hc] at hP
  rw [← Except.ok.inj hP, List.mem_dedup]

/-- Witness for C6 on the diamond graph: level-1 membership of concept 2
coincides with its membership in the parents set of concept 1. -/
theorem C6_witness : ((2, 1) ∈ ([(2, 1), (5, 1), (3, 2), (4, 2)] : List (Nat × Nat))) ↔
    (2 ∈ ([2, 5] : List Nat)) :=
  C6_level_one_eq_parents exGraph 1 [(2, 1), (5, 1), (3, 2), (4, 2)] [2, 5]
    (by decide) rfl rfl 2

/-- C7: for loaded concepts, `c` is a child of `p` exactly when `p` is a
parent of `c`; and a loaded concept with no incoming is-a edge has the empty
child set, not an error. -/
theorem C7_children_parents_inverse (S : Snapshot) :
    (∀ p c Cp Pc, p ∈ S.concepts → c ∈ S.concepts →
      get_children S p = .ok Cp → get_parents S c = .ok Pc →
      (c ∈ Cp ↔ p ∈ Pc)) ∧
    (∀ q, q ∈ S.concepts → (∀ e ∈ S.edges, e.2 ≠ q) → get_children S q = .ok []) := by
  constructor
  · intro p c Cp Pc hp hc hCp hPc
    unfold get_children at hCp
    rw [if_pos hp] at hCp
    unfold get_parents at hPc
    rw [if_pos hc] at hPc
    rw [← Except.ok.inj hCp, ← Except.ok.inj hPc,
      List.mem_dedup, List.mem_dedup, mem_childrenOf, mem_parentsOf]
  · intro q hq hnone
    unfold get_children
    rw [if_pos hq]
    have hnil : childrenOf S.edges q = [] := by
      unfold childrenOf
      rw [List.map_eq_nil_iff]
      rw [List.filter_eq_nil_iff]
      intro e he
      rw [decide_eq_true_eq]
      exact hnone e he
    rw [hnil]
    rfl

/-- Witness for C7 on the diamond graph: 1 is a child of 2 exactly as 2 is a
parent of 1, and concept 1, which no edge targets, has the empty child set. -/
theorem C7_witness : ((1 ∈ ([1] : List Nat)) ↔ (2 ∈ ([2, 5] : List Nat))) ∧
    get_children exGraph 1 = .ok [] :=
  ⟨(C7_children_parents_inverse exGraph).1 2 1 [1] [2, 5] (by decide) (by decide) rfl rfl,
   (C7_children_parents_inverse exGraph).2 1 (by decide) (by decide)⟩

lemma mapConditionsKnown_cons (find : String → Option Nat) (t : String)
    (rest : List String) (acc : List (String × Nat)) :
    mapConditionsKnown find (t :: rest) acc =
      mapConditionsKnown find rest
        (match find t with
         | some c =>
           if decide (c ≠ 0) && acc.all (fun p => decide (p.1 ≠ t)) then acc ++ [(t, c)] else acc
         | none => acc) := rfl

lemma mapConditionsKnown_cons_some (find : String → Option Nat) (t : String)
    (rest : List String) (acc : List (String × Nat)) (c : Nat) (hft : find t = some c) :
    mapConditionsKnown find (t :: rest) acc =
      mapConditionsKnown find rest
        (if decide (c ≠ 0) && acc.all (fun p => decide (p.1 ≠ t))
         then acc ++ [(t, c)] else acc) := by
  rw [mapConditionsKnown_cons, hft]

lemma mapConditionsKnown_cons_none (find : String → Option Nat) (t : String)
    (rest : List String) (acc : List (String × Nat)) (hft : find t = none) :
    mapConditionsKnown find (t :: rest) acc = mapConditionsKnown find rest acc := by
  rw [mapConditionsKnown_cons, hft]

lemma mem_mapConditionsKnown (find : String → Option Nat) :
    ∀ (l : List String) (acc : List (String × Nat)) (s : String) (v : Nat),
      ((s, v) ∈ mapConditionsKnown find l acc ↔
        (s, v) ∈ acc ∨ (s ∈ l ∧ find s = some v ∧ v ≠ 0 ∧ ∀ w, (s, w) ∉ acc)) := by
  intro l
  induction l with
  | nil =>
    intro acc s v
    simp [mapConditionsKnown]
  | cons t rest ih =>
    intro acc s v
    cases hft : find t with
    | none =>
      rw [mapConditionsKnown_cons_none find t rest acc hft, ih]
      refine or_congr Iff.rfl ?_
      constructor
      · rintro ⟨hs, h2, h3, h4⟩
        exact ⟨List.mem_cons.mpr (Or.inr hs), h2, h3, h4⟩
      · rintro ⟨hs, h2, h3, h4⟩
        rcases List.mem_cons.mp hs with rfl | hs2
        · rw [hft] at h2
          cases h2
        · exact ⟨hs2, h2, h3, h4⟩
    | some c =>
      rw [mapConditionsKnown_cons_some find t rest acc c hft]
      by_cases hg : (decide (c ≠ 0) && acc.all (fun p => decide (p.1 ≠ t))) = true
      · rw [if_pos hg, ih]
        rw [Bool.and_eq_true, decide_eq_true_eq] at hg
        obtain ⟨hc0, hall⟩ := hg
        have hallp : ∀ w, (t, w) ∉ acc := by
          intro w hw
          have := List.all_eq_true.mp hall (t, w) hw
          rw [decide_eq_true_eq] at this
          exact this rfl
        constructor
        · rintro (hmem | ⟨hs, h2, h3, h4⟩)
          · rcases List.mem_append.mp hmem with hacc | hnew
            · exact Or.inl hacc
            · rw [List.mem_singleton] at hnew
              injection hnew with e1 e2
              subst e1
              subst e2
              exact Or.inr ⟨List.mem_cons_self _ _, hft, hc0, hallp⟩
          · refine Or.inr ⟨List.mem_cons.mpr (Or.inr hs), h2, h3, ?_⟩
            intro w hw
            exact h4 w (List.mem_append.mpr (Or.inl hw))
        · rintro (hacc | ⟨hs, h2, h3, h4⟩)
          · exact Or.inl (List.mem_append.mpr (Or.inl hacc))
          · by_cases hst : s = t
            · subst hst
              rw [hft] at h2
              injection h2 with e
              subst e
              exact Or.inl (List.mem_append.mpr (Or.inr (List.mem_singleton.mpr rfl)))
            · rcases List.mem_cons.mp hs with heq | hs2
              · exact absurd heq hst
              · refine Or.inr ⟨hs2, h2, h3, ?_⟩
                intro w hw
                rcases List.mem_append.mp hw with hin | hin
                · exact h4 w hin
                · rw [List.mem_singleton] at hin
                  injection hin with e1 e2
                  exact hst e1
      · rw [if_neg hg, ih]
        refine or_congr Iff.rfl ?_
        constructor
        · rintro ⟨hs, h2, h3, h4⟩
          exact ⟨List.mem_cons.mpr (Or.inr hs), h2, h3, h4⟩
        · rintro ⟨hs, h2, h3, h4⟩
          rcases List.mem_cons.mp hs with rfl | hs2
          · exfalso
            rw [hft] at h2
            injection h2 with e
            subst e
            apply hg
            rw [Bool.and_eq_true]
            refine ⟨decide_eq_true h3, List.all_eq_true.mpr ?_⟩
            intro p hp
            rw [decide_eq_true_eq]
            intro he
            have hpe : (s, p.2) = p := by
              rw [← he]
            exact h4 p.2 (hpe ▸ hp)
          · exact ⟨hs2, h2, h3, h4⟩

lemma mem_known_iff (find : String → Option Nat) (data : List String) (s : String) (v : Nat) :
    (s, v) ∈ mapConditionsKnown find data [] ↔
      s ∈ data ∧ find s = some v ∧ v ≠ 0 := by
  rw [mem_mapConditionsKnown]
  simp

/-- C10: `automatically_map_conditions` partitions its input — `known` maps
exactly the input strings whose resolution is truthy to the resolved integer
id, `unknown` is exactly the input strings not in `known`, in input order,
and no string is on both sides. -/
theorem C10_automatically_map_partition (find : String → Option Nat) (data : List String) :
    (∀ s v, (s, v) ∈ (automatically_map_conditions find data).1 →
      s ∈ data ∧ find s = some v ∧ v ≠ 0) ∧
    (∀ s, s ∈ data → truthyCui (find s) = true →
      ∃ v, (s, v) ∈ (automatically_map_conditions find data).1 ∧ find s = some v) ∧
    ((automatically_map_conditions find data).2 =
      data.filter (fun s => ! truthyCui (find s))) ∧
    (∀ s, s ∈ (automatically_map_conditions find data).2 →
      ∀ v, (s, v) ∉ (automatically_map_conditions find data).1) := by
  have hfst : (automatically_map_conditions find data).1 = mapConditionsKnown find data [] := rfl
  have hsnd : (automatically_map_conditions find data).2 =
      data.filter (fun s =>
        (mapConditionsKnown find data []).all (fun p => decide (p.1 ≠ s))) := rfl
  refine ⟨?_, ?_, ?_, ?_⟩
  · intro s v h
    rw [hfst] at h
    exact (mem_known_iff find data s v).mp h
  · intro s hs ht
    cases hfind : find s with
    | none =>
      rw [hfind] at ht
      simp [truthyCui] at ht
    | some v =>
      rw [hfind] at ht
      have hv : v ≠ 0 := of_decide_eq_true ht
      refine ⟨v, ?_, rfl⟩
      rw [hfst]
      exact (mem_known_iff find data s v).mpr ⟨hs, hfind, hv⟩
  · rw [hsnd]
    apply List.filter_congr
    intro s hs
    cases hfind : find s with
    | none =>
      rw [show (! truthyCui none) = true from rfl]
      apply List.all_eq_true.mpr
      intro p hp
      rw [decide_eq_true_eq]
      intro he
      have hmem : (s, p.2) ∈ mapConditionsKnown find data [] := by
        have hpe : (s, p.2) = p := by rw [← he]
        rw [hpe]
        exact hp
      obtain ⟨_, hf2, _⟩ := (mem_known_iff find data s p.2).mp hmem
      rw [hfind] at hf2
      cases hf2
    | some v =>
      by_cases hv : v = 0
      · subst hv
        rw [show (! truthyCui (some 0)) = true from rfl]
        apply List.all_eq_true.mpr
        intro p hp
        rw [decide_eq_true_eq]
        intro he
        have hmem : (s, p.2) ∈ mapConditionsKnown find data [] := by
          have hpe : (s, p.2) = p := by rw [← he]
          rw [hpe]
          exact hp
        obtain ⟨_, hf2, hnz⟩ := (mem_known_iff find data s p.2).mp hmem
        rw [hfind] at hf2
        injection hf2 with e
        exact hnz e.symm
      · have htr : truthyCui (some v) = true := decide_eq_true hv
        rw [htr, Bool.not_true]
        have hmem : (s, v) ∈ mapConditionsKnown find data [] :=
          (mem_known_iff find data s v).mpr ⟨hs, hfind, hv⟩
        cases hall : (mapConditionsKnown find data []).all (fun p => decide (p.1 ≠ s)) with
        | false => rfl
        | true =>
          exfalso
          have := List.all_eq_true.mp hall (s, v) hmem
          rw [decide_eq_true_eq] at this
          exact this rfl
  · intro s hsu v hv
    rw [hsnd] at hsu
    obtain ⟨_, hcond⟩ := List.mem_filter.mp hsu
    rw [hfst] at hv
    have := List.all_eq_true.mp hcond (s, v) hv
    rw [decide_eq_true_eq] at this
    exact this rfl

/-- Witness for C10: with the resolver of the concrete snapshot, the mappable
string goes to `known` and the unmappable one is left in `unknown`. -/
theorem C10_witness :
    (automatically_map_conditions (fun t => find_cui exSnap t)
      ["Asthma", "Chest infection"]).2 = ["Chest infection"] := by
  rw [(C10_automatically_map_partition (fun t => find_cui exSnap t)
    ["Asthma", "Chest infection"]).2.2.1]
  decide

end SnomedSquasher
